import Mathlib

/-!
Verification of the pathtracer core (`src/main.rs`, `src/sphere.rs`,
`src/half_plane.rs`, `src/camera.rs`, `src/hittable.rs`).

The Rust `f64` scalars are modelled as exact real numbers `ℝ`; where a claim
hinges on IEEE-754 special values (division by zero producing infinities or
NaN) a dedicated small model `FP` of special values is used, restricted to the
single division that can produce them.  Randomness is modelled by explicit
oracle arguments: the rejection sampler of `Ray::rand_diffuse` is represented
by the accepted draw it ends on, and `trace_path` receives a stream of such
draws indexed by remaining depth.
-/

noncomputable section

/-- The 3-component real vector (`cgmath` `Vector3<f64>`). -/
@[ext]
structure Vec3 where
  x : ℝ
  y : ℝ
  z : ℝ

namespace Vec3

instance : Zero Vec3 := ⟨⟨0, 0, 0⟩⟩

instance : Add Vec3 := ⟨fun a b => ⟨a.x + b.x, a.y + b.y, a.z + b.z⟩⟩

instance : Sub Vec3 := ⟨fun a b => ⟨a.x - b.x, a.y - b.y, a.z - b.z⟩⟩

instance : Neg Vec3 := ⟨fun a => ⟨-a.x, -a.y, -a.z⟩⟩

instance : SMul ℝ Vec3 := ⟨fun c a => ⟨c * a.x, c * a.y, c * a.z⟩⟩

/-- `cgmath` dot product. -/
def dot (a b : Vec3) : ℝ := a.x * b.x + a.y * b.y + a.z * b.z

/-- `cgmath` `magnitude2`: squared length. -/
def magnitude2 (a : Vec3) : ℝ := dot a a

/-- `cgmath` `magnitude`: length. -/
def magnitude (a : Vec3) : ℝ := Real.sqrt (magnitude2 a)

/-- `cgmath` `normalize`: `self * (1 / magnitude)`. -/
def normalize (a : Vec3) : Vec3 := (1 / magnitude a) • a

/-- `cgmath` `normalize_to(m)`: `self * (m / magnitude)`. -/
def normalize_to (a : Vec3) (m : ℝ) : Vec3 := (m / magnitude a) • a

/-- `cgmath` `project_on`: `other * (self.dot(other) / other.magnitude2())`. -/
def project_on (a onto : Vec3) : Vec3 :=
  (dot a onto / magnitude2 onto) • onto

@[simp] lemma zero_def : (0 : Vec3) = ⟨0, 0, 0⟩ := rfl

@[simp] lemma add_def (a b : Vec3) :
    a + b = ⟨a.x + b.x, a.y + b.y, a.z + b.z⟩ := rfl

@[simp] lemma sub_def (a b : Vec3) :
    a - b = ⟨a.x - b.x, a.y - b.y, a.z - b.z⟩ := rfl

@[simp] lemma neg_def (a : Vec3) : -a = ⟨-a.x, -a.y, -a.z⟩ := rfl

@[simp] lemma smul_def (c : ℝ) (a : Vec3) :
    c • a = ⟨c * a.x, c * a.y, c * a.z⟩ := rfl

lemma dot_self_nonneg (a : Vec3) : 0 ≤ dot a a := by
  unfold dot
  nlinarith [mul_self_nonneg a.x, mul_self_nonneg a.y, mul_self_nonneg a.z]

lemma magnitude2_nonneg (a : Vec3) : 0 ≤ magnitude2 a :=
  dot_self_nonneg a

lemma dot_self_eq_zero_iff (a : Vec3) : dot a a = 0 ↔ a = 0 := by
  unfold dot
  constructor
  · intro h
    have hx : a.x = 0 := by nlinarith [sq_nonneg a.x, sq_nonneg a.y, sq_nonneg a.z]
    have hy : a.y = 0 := by nlinarith [sq_nonneg a.x, sq_nonneg a.y, sq_nonneg a.z]
    have hz : a.z = 0 := by nlinarith [sq_nonneg a.x, sq_nonneg a.y, sq_nonneg a.z]
    ext <;> simp [hx, hy, hz]
  · intro h
    subst h
    simp

lemma magnitude_nonneg (a : Vec3) : 0 ≤ magnitude a :=
  Real.sqrt_nonneg _

/-- Squared length of a scalar multiple. -/
lemma magnitude2_smul (c : ℝ) (a : Vec3) :
    magnitude2 (c • a) = c ^ 2 * magnitude2 a := by
  simp only [magnitude2, dot, smul_def]
  ring

/-- A normalized nonzero vector has length one. -/
lemma magnitude_normalize (a : Vec3) (h : a ≠ 0) :
    magnitude (normalize a) = 1 := by
  have h2 : dot a a ≠ 0 := fun hc => h ((dot_self_eq_zero_iff a).mp hc)
  have hpos : 0 < dot a a := lt_of_le_of_ne (dot_self_nonneg a) (Ne.symm h2)
  have hm2 : magnitude2 a = dot a a := rfl
  have hsq : Real.sqrt (dot a a) ^ 2 = dot a a :=
    Real.sq_sqrt (le_of_lt hpos)
  have hsqrt_pos : 0 < Real.sqrt (dot a a) := Real.sqrt_pos.mpr hpos
  unfold normalize
  rw [magnitude, magnitude2_smul]
  have : (1 / magnitude a) ^ 2 * magnitude2 a = 1 := by
    rw [magnitude, hm2]
    rw [div_pow, one_pow, hsq, one_div, inv_mul_cancel₀ h2]
  rw [this, Real.sqrt_one]

end Vec3

/-- `Ray` from `main.rs`: origin plus direction. -/
structure Ray where
  origin : Vec3
  direction : Vec3

namespace Ray

/-- `Ray::new`: stores the origin and the *normalized* direction. -/
def new (origin direction : Vec3) : Ray :=
  ⟨origin, direction.normalize⟩

/-- `Ray::at`: the point `origin + t * direction`. -/
def at' (r : Ray) (t : ℝ) : Vec3 := r.origin + t • r.direction

/-- `Ray::rand_diffuse`: the rejection loop repeatedly draws `v` until
`|v|² ≤ 1` and breaks with `v.normalize()`; `v` here models the accepted
draw.  The new ray keeps the origin and adds the normalized draw to the
direction — note it is built literally, not via `Ray::new`. -/
def rand_diffuse (r : Ray) (v : Vec3) : Ray :=
  ⟨r.origin, r.direction + v.normalize⟩

/-- `Ray::sunward_ray`: `sun_dir = -(1, 5, 0.5)`; returns `None` when
`dot(sun_dir, direction) < 0`, otherwise a ray with direction `sun_dir`
built literally (not via `Ray::new`). -/
def sunward_ray (r : Ray) : Option Ray :=
  let sun_dir : Vec3 := -⟨1, 5, 0.5⟩
  if Vec3.dot sun_dir r.direction < 0 then none
  else some ⟨r.origin, sun_dir⟩

end Ray

/-- `Sphere` from `sphere.rs`. -/
structure Sphere where
  center : Vec3
  radius : ℝ

namespace Sphere

/-- `Sphere::hit` (`sphere.rs` lines 12–32), literally: `pc = center - origin`,
`pc2 = dot(pc, direction)`, `descriminant = radius² - |pc|² + pc2²`; reject a
negative discriminant, take `t = pc2 - descriminant` (the source subtracts the
discriminant itself, not its square root), reject `t < 0`, and return `t` with
the normal ray `Ray::new(intersection, intersection - center)`. -/
def hit (s : Sphere) (ray : Ray) : Option (ℝ × Ray) :=
  let pc := s.center - ray.origin
  let pc2 := Vec3.dot pc ray.direction
  let descriminant := s.radius * s.radius - pc.magnitude2 + pc2 * pc2
  if descriminant < 0 then none
  else
    let t := pc2 - descriminant
    if t < 0 then none
    else
      let intersection := ray.at' t
      some (t, Ray.new intersection (intersection - s.center))

end Sphere

/-- `HalfPlane` from `half_plane.rs`: the plane `dot(p, normal) = offset`. -/
structure HalfPlane where
  normal : Vec3
  offset : ℝ

namespace HalfPlane

/-- `HalfPlane::hit` (`half_plane.rs` lines 13–23), literally:
`proj = origin.project_on(normal)`, `t = (offset - proj.magnitude())
/ dot(direction, normal)`, reject `t < 0`, return the normal ray
`Ray::new(ray.at(t), normal)`.  Note `proj.magnitude()` is unsigned. -/
def hit (hp : HalfPlane) (ray : Ray) : Option (ℝ × Ray) :=
  let proj := ray.origin.project_on hp.normal
  let t := (hp.offset - proj.magnitude) / Vec3.dot ray.direction hp.normal
  let intersect := ray.at' t
  if t < 0 then none
  else some (t, Ray.new intersect hp.normal)

end HalfPlane

/-- The scene-object capability of `hittable.rs`, closed over the two
implementors (`Sphere`, `HalfPlane`), with `hit` as the dispatch. -/
inductive Hittable where
  | sphere (s : Sphere)
  | halfPlane (hp : HalfPlane)

namespace Hittable

/-- Dispatch of the `Hittable::hit` trait method. -/
def hit : Hittable → Ray → Option (ℝ × Ray)
  | sphere s, ray => s.hit ray
  | halfPlane hp, ray => hp.hit ray

end Hittable

/-- `World` from `main.rs`: the list of scene objects. -/
structure World where
  stuff : List Hittable

/-- One step of the nearest-hit loop of `trace_path` (`main.rs` lines 88–100):
if the item hits, keep the stored hit when its `t_new` is smaller, otherwise
take the new hit; a missing stored hit takes the new one; a non-hitting item
leaves the accumulator unchanged. -/
def closest_hit_step (acc : Option (ℝ × Ray)) (item : Hittable) (ray : Ray) :
    Option (ℝ × Ray) :=
  match item.hit ray with
  | some (t, norm) =>
    match acc with
    | some (t_new, norm_new) =>
      if t_new < t then some (t_new, norm_new) else some (t, norm)
    | none => some (t, norm)
  | none => acc

/-- The nearest-hit fold of `trace_path` over `world.stuff`. -/
def closest_hit (world : World) (ray : Ray) : Option (ℝ × Ray) :=
  world.stuff.foldl (fun acc item => closest_hit_step acc item ray) none

/-- The color type: `Rgb<f64>` with its three channels. -/
structure Rgb where
  r : ℝ
  g : ℝ
  b : ℝ

/-- `trace_path` (`main.rs` lines 84–120): black at depth 0; otherwise find
the nearest hit; on a hit, diffuse-bounce off the returned normal ray and
attenuate the recursive color by 0.4 per channel; on a miss return the sky
gradient from the normalized direction's `y`.  `bounce d` supplies the
accepted rejection-sampler draw consumed at remaining depth `d + 1`. -/
def trace_path : Ray → World → ℕ → (ℕ → Vec3) → Rgb
  | _, _, 0, _ => ⟨0, 0, 0⟩
  | ray, world, d + 1, bounce =>
    match closest_hit world ray with
    | some (_, norm) =>
      let next := trace_path (norm.rand_diffuse (bounce d)) world d bounce
      ⟨next.r * 0.4, next.g * 0.4, next.b * 0.4⟩
    | none =>
      let unit := ray.direction.normalize
      let t := 0.5 * (unit.y + 1.0)
      let ti := 1.0 - t
      ⟨ti + t * 0.5, ti + t * 0.7, 1.0⟩

/-- `Camera` from `camera.rs`. -/
structure Camera where
  ray : Ray
  image_width : ℕ
  image_height : ℕ
  field_of_view : ℝ
  focal_length : ℝ
  aperture : ℝ

namespace Camera

/-- `Camera::aspect_ratio`: `image_width / image_height`. -/
def aspect_ratio (c : Camera) : ℝ :=
  (c.image_width : ℝ) / (c.image_height : ℝ)

/-- `Camera::viewport_width`: `tan(field_of_view * 0.5) * 2 * focal_length`. -/
def viewport_width (c : Camera) : ℝ :=
  Real.tan (c.field_of_view * 0.5) * 2 * c.focal_length

/-- `Camera::viewport_height`: `viewport_width / aspect_ratio`. -/
def viewport_height (c : Camera) : ℝ :=
  c.viewport_width / c.aspect_ratio

end Camera

/-!  IEEE-754 special-value model, used only for the one division in
`HalfPlane::hit` that can produce a non-finite value: its numerator
`offset - proj.magnitude()` and denominator `dot(direction, normal)` are
ordinary (finite) real computations, so the division is the single operation
where `f64` and `ℝ` semantics part ways. -/

/-- An `f64` value that is finite, `+∞`, `-∞`, or NaN. -/
inductive FP where
  | fin (val : ℝ)
  | inf
  | ninf
  | nan

/-- IEEE-754 division of two finite values: a nonzero denominator divides
exactly; a zero denominator gives `+∞`, `-∞` or NaN by the numerator's sign. -/
def fpDiv (a b : ℝ) : FP :=
  if b = 0 then
    if 0 < a then FP.inf else if a < 0 then FP.ninf else FP.nan
  else FP.fin (a / b)

/-- The IEEE comparison `t < 0.0`: `+∞ < 0` and `NaN < 0` are false,
`-∞ < 0` is true. -/
def fpLtZero : FP → Prop
  | FP.fin v => v < 0
  | FP.inf => False
  | FP.ninf => True
  | FP.nan => False

instance (t : FP) : Decidable (fpLtZero t) :=
  match t with
  | FP.fin v => (inferInstance : Decidable (v < 0))
  | FP.inf => (inferInstance : Decidable False)
  | FP.ninf => (inferInstance : Decidable True)
  | FP.nan => (inferInstance : Decidable False)

/-- The `t`-component of `HalfPlane::hit` under IEEE-754 semantics for the
division: same numerator, denominator and `t < 0.0` rejection as
`HalfPlane.hit`, with the division performed by `fpDiv` so that a zero
denominator (a ray parallel to the plane) produces `±∞`/NaN instead of the
real-number junk value. -/
def half_plane_hit_t_ieee (hp : HalfPlane) (ray : Ray) : Option FP :=
  let proj := ray.origin.project_on hp.normal
  let t := fpDiv (hp.offset - proj.magnitude) (Vec3.dot ray.direction hp.normal)
  if fpLtZero t then none
  else some t

/-!  Spec-side comparator definitions (clearly named `spec_…`), written from
the spec's words, to be compared with the definitions above. -/

/-- Spec-side: the sky color the claim describes, the convex combination
`(1 - t)·(1,1,1) + t·(0.5,0.7,1.0)` with `t = 0.5·(unit_direction.y + 1)`. -/
def spec_sky_gradient (ray : Ray) : Rgb :=
  let unit := ray.direction.normalize
  let t := 0.5 * (unit.y + 1.0)
  ⟨(1 - t) * 1 + t * 0.5, (1 - t) * 1 + t * 0.7, (1 - t) * 1 + t * 1.0⟩

/-- Spec-side: one step of folding "the smallest `t` so far" — skip an object
with no hit, otherwise take `min` with the accumulator. -/
def spec_min_step (acc : Option ℝ) (item : Hittable) (ray : Ray) : Option ℝ :=
  match (item.hit ray).map Prod.fst with
  | some t =>
    match acc with
    | some a => some (min a t)
    | none => some t
  | none => acc

/-- Spec-side: "keeping the hit with the smallest `t`" — the minimum of the
`t` values of the objects that report a hit, as an order-insensitive fold of
`min`. -/
def spec_min_hit_t (world : World) (ray : Ray) : Option ℝ :=
  world.stuff.foldl (fun acc item => spec_min_step acc item ray) none

end

/-!  Unfolding lemmas. -/

/-- Unfolding of `trace_path` at a positive depth. -/
lemma trace_path_succ (ray : Ray) (world : World) (k : ℕ) (bounce : ℕ → Vec3) :
    trace_path ray world (k + 1) bounce =
      match closest_hit world ray with
      | some (_, norm) =>
        let next := trace_path (norm.rand_diffuse (bounce k)) world k bounce
        ⟨next.r * 0.4, next.g * 0.4, next.b * 0.4⟩
      | none =>
        let unit := ray.direction.normalize
        let t := 0.5 * (unit.y + 1.0)
        let ti := 1.0 - t
        ⟨ti + t * 0.5, ti + t * 0.7, 1.0⟩ := rfl

/-- An empty world yields no hit. -/
lemma closest_hit_nil (ray : Ray) : closest_hit ⟨[]⟩ ray = none := rfl

/-!  C7. -/

/-- Claim C7: for every ray, every world, and every RNG state, `trace_path`
with `depth == 0` returns exactly the black color `(0, 0, 0)`, regardless of
the ray and the scene contents. -/
theorem c7_trace_path_depth_zero (ray : Ray) (world : World) (bounce : ℕ → Vec3) :
    trace_path ray world 0 bounce = ⟨0, 0, 0⟩ := rfl

/-!  C6. -/

/-- Counterexample to claim C6 as stated: at `depth == 0` the recursion
cutoff returns black, which is not the sky-gradient convex combination (whose
blue channel is always `1`). -/
theorem c6_counterexample :
    trace_path ⟨⟨0, 0, 0⟩, ⟨0, 1, 0⟩⟩ ⟨[]⟩ 0 (fun _ => 0) ≠
      spec_sky_gradient ⟨⟨0, 0, 0⟩, ⟨0, 1, 0⟩⟩ := by
  intro h
  have hb := congrArg Rgb.b h
  simp only [trace_path, spec_sky_gradient] at hb
  linarith [hb]

/-- Claim C6 (amended to positive depth): for every ray, every positive depth,
and every RNG state, `trace_path` against an empty `World` never reports a hit
and returns the convex combination `(1 - t)·(1,1,1) + t·(0.5,0.7,1.0)` with
`t = 0.5·(unit_direction.y + 1)`. -/
theorem c6_trace_path_empty_world (ray : Ray) (d : ℕ) (bounce : ℕ → Vec3)
    (hd : 0 < d) :
    closest_hit ⟨[]⟩ ray = none ∧
      trace_path ray ⟨[]⟩ d bounce = spec_sky_gradient ray := by
  refine ⟨rfl, ?_⟩
  cases d with
  | zero => exact absurd hd (by norm_num)
  | succ k =>
    rw [trace_path_succ, closest_hit_nil]
    simp only [spec_sky_gradient]
    rw [Rgb.mk.injEq]
    refine ⟨by ring, by ring, by ring⟩

/-- Witness for C6 at a concrete input. -/
theorem c6_witness :
    closest_hit ⟨[]⟩ ⟨⟨0, 0, 0⟩, ⟨0, 1, 0⟩⟩ = none ∧
      trace_path ⟨⟨0, 0, 0⟩, ⟨0, 1, 0⟩⟩ ⟨[]⟩ 1 (fun _ => 0) =
        spec_sky_gradient ⟨⟨0, 0, 0⟩, ⟨0, 1, 0⟩⟩ :=
  c6_trace_path_empty_world ⟨⟨0, 0, 0⟩, ⟨0, 1, 0⟩⟩ 1 (fun _ => 0) (by norm_num)

/-!  C1. -/

/-- Claim C1 fails on the code: the sphere at `(0,0,-5)` of radius `2`, and
the ray from the origin aimed directly at its center (distance `5 > 2`, unit
direction `(0,0,-1)`), produce `t = pc2 - descriminant = 5 - 4 = 1`, while
the claim demands `t = distance - radius = 3`; the source subtracts the whole
discriminant where the geometric root needs its square root. -/
theorem c1_sphere_hit_head_on_eval :
    (Sphere.hit ⟨⟨0, 0, -5⟩, 2⟩ ⟨⟨0, 0, 0⟩, ⟨0, 0, -1⟩⟩).map Prod.fst = some 1 ∧
      (1 : ℝ) ≠ 5 - 2 := by
  constructor
  · norm_num [Sphere.hit, Vec3.dot, Vec3.magnitude2, Ray.at']
  · norm_num

/-!  C2. -/

/-- Counterexample to claim C2 as stated: `Ray::sunward_ray` builds its result
literally, with direction `-(1,5,0.5)` of squared length `26.25`, so the
produced ray's direction does not have magnitude 1. -/
theorem c2_counterexample :
    Ray.sunward_ray ⟨⟨0, 0, 0⟩, ⟨0, -1, 0⟩⟩ =
        some ⟨⟨0, 0, 0⟩, ⟨-1, -5, -0.5⟩⟩ ∧
      Vec3.magnitude ⟨-1, -5, -0.5⟩ ≠ 1 := by
  constructor
  · norm_num [Ray.sunward_ray, Vec3.dot]
  · intro h
    rw [Vec3.magnitude] at h
    have h1 := Real.sqrt_eq_one.mp h
    rw [Vec3.magnitude2, Vec3.dot] at h1
    norm_num at h1

/-- Claim C2 (amended): every ray built by `Ray::new` on a nonzero direction
has a unit-length direction — this covers `CameraRayGen::gen_ray` and the
normal rays of `Sphere::hit` and `HalfPlane::hit`, all of which construct via
`Ray::new`; in particular `HalfPlane::hit`'s normal ray has unit direction
whenever the plane normal is nonzero.  (`Ray::rand_diffuse` and
`Ray::sunward_ray` bypass `Ray::new` and generally violate the invariant.) -/
theorem c2_amended (o d : Vec3) (hp : HalfPlane) (ray : Ray) (t : ℝ) (nr : Ray)
    (hd : d ≠ 0) (hn : hp.normal ≠ 0) (hhit : hp.hit ray = some (t, nr)) :
    Vec3.magnitude (Ray.new o d).direction = 1 ∧
      Vec3.magnitude nr.direction = 1 := by
  refine ⟨Vec3.magnitude_normalize d hd, ?_⟩
  simp only [HalfPlane.hit] at hhit
  split at hhit
  · exact absurd hhit (by simp)
  · rw [Option.some.injEq, Prod.mk.injEq] at hhit
    obtain ⟨-, hnr⟩ := hhit
    rw [← hnr]
    exact Vec3.magnitude_normalize hp.normal hn

/-- Witness for C2 at concrete inputs. -/
theorem c2_witness :
    Vec3.magnitude (Ray.new ⟨0, 0, 0⟩ ⟨3, 4, 0⟩).direction = 1 ∧
      Vec3.magnitude (Ray.new ⟨0, 1, 0⟩ ⟨0, 1, 0⟩).direction = 1 :=
  c2_amended ⟨0, 0, 0⟩ ⟨3, 4, 0⟩ ⟨⟨0, 1, 0⟩, 1⟩ ⟨⟨0, 1, 0⟩, ⟨0, -1, 0⟩⟩ 0
    (Ray.new ⟨0, 1, 0⟩ ⟨0, 1, 0⟩)
    (by simp [Vec3.ext_iff])
    (by simp [Vec3.ext_iff])
    (by norm_num [HalfPlane.hit, Vec3.dot, Vec3.magnitude, Vec3.magnitude2,
      Vec3.project_on, Ray.at', Real.sqrt_one])

/-!  C5. -/

/-- Counterexample to claim C5 as stated: a ray starting on the sphere's
surface tangent to it is reported as a hit with `t = 0`, not `t > 0` — the
source only rejects `t < 0`. -/
theorem c5_counterexample :
    (Sphere.hit ⟨⟨0, 0, -1⟩, 1⟩ ⟨⟨0, 0, 0⟩, ⟨1, 0, 0⟩⟩).map Prod.fst = some 0 ∧
      ¬ (0 : ℝ) > 0 := by
  constructor
  · norm_num [Sphere.hit, Vec3.dot, Vec3.magnitude2, Ray.at']
  · norm_num

/-- Claim C5 (amended to a non-strict bound): every `Some((t, _))` result of
`Sphere::hit` or `HalfPlane::hit` satisfies `t ≥ 0` (both reject exactly
`t < 0`, so `t = 0` can be reported). -/
theorem c5_amended (obj : Hittable) (ray : Ray) (p : ℝ × Ray)
    (h : obj.hit ray = some p) : 0 ≤ p.1 := by
  cases obj with
  | sphere s =>
    simp only [Hittable.hit, Sphere.hit] at h
    split at h
    · exact absurd h (by simp)
    · split at h
      · exact absurd h (by simp)
      · rw [Option.some.injEq] at h
        rw [← h]
        next hnot => exact le_of_not_lt hnot
  | halfPlane hp =>
    simp only [Hittable.hit, HalfPlane.hit] at h
    split at h
    · exact absurd h (by simp)
    · rw [Option.some.injEq] at h
      rw [← h]
      next hnot => exact le_of_not_lt hnot

/-- Witness for C5 at a concrete input. -/
theorem c5_witness :
    0 ≤ ((2 : ℝ), Ray.new ⟨0, 0, -2⟩ ⟨0, 0, 1⟩).1 :=
  c5_amended (.sphere ⟨⟨0, 0, -3⟩, 1⟩) ⟨⟨0, 0, 0⟩, ⟨0, 0, -1⟩⟩
    ((2 : ℝ), Ray.new ⟨0, 0, -2⟩ ⟨0, 0, 1⟩)
    (by norm_num [Hittable.hit, Sphere.hit, Vec3.dot, Vec3.magnitude2, Ray.at'])

/-- Dot product against a translated-by-scaled-vector point. -/
lemma Vec3.dot_add_smul (a b n : Vec3) (c : ℝ) :
    Vec3.dot (a + c • b) n = Vec3.dot a n + c * Vec3.dot b n := by
  simp only [Vec3.dot, Vec3.add_def, Vec3.smul_def]
  ring

/-- Claim C3 (amended): for a half-plane with unit normal and a ray whose
origin has nonnegative signed distance along the normal and whose direction is
not parallel to the plane, a reported hit lies on the plane and `t` is
`(offset - dot(origin, normal)) / dot(direction, normal)`. -/
theorem c3_amended (hp : HalfPlane) (ray : Ray) (t : ℝ) (nr : Ray)
    (hunit : Vec3.dot hp.normal hp.normal = 1)
    (hside : 0 ≤ Vec3.dot ray.origin hp.normal)
    (hdenom : Vec3.dot ray.direction hp.normal ≠ 0)
    (hhit : hp.hit ray = some (t, nr)) :
    Vec3.dot nr.origin hp.normal = hp.offset ∧
      t = (hp.offset - Vec3.dot ray.origin hp.normal) /
            Vec3.dot ray.direction hp.normal := by
  have hm2 : Vec3.magnitude2 hp.normal = 1 := hunit
  have hproj : (ray.origin.project_on hp.normal).magnitude =
      Vec3.dot ray.origin hp.normal := by
    rw [Vec3.project_on, Vec3.magnitude, Vec3.magnitude2_smul, hm2]
    rw [div_one, mul_one, Real.sqrt_sq_eq_abs, abs_of_nonneg hside]
  simp only [HalfPlane.hit] at hhit
  split at hhit
  · exact absurd hhit (by simp)
  · rw [Option.some.injEq, Prod.mk.injEq] at hhit
    obtain ⟨ht, hnr⟩ := hhit
    have ht' : t = (hp.offset - Vec3.dot ray.origin hp.normal) /
        Vec3.dot ray.direction hp.normal := by
      rw [← ht, hproj]
    have horig : nr.origin = ray.at' t := by
      rw [← hnr, ht]
      rfl
    refine ⟨?_, ht'⟩
    rw [horig, ht']
    show Vec3.dot (ray.origin + _ • ray.direction) hp.normal = hp.offset
    rw [Vec3.dot_add_smul, div_mul_cancel₀ _ hdenom]
    ring

/-- Witness for C3 at a concrete input. -/
theorem c3_witness :
    Vec3.dot (Ray.new ⟨0, 1, 0⟩ ⟨0, 1, 0⟩).origin (⟨0, 1, 0⟩ : Vec3) = 1 ∧
      (0 : ℝ) = ((1 : ℝ) - Vec3.dot (⟨0, 1, 0⟩ : Vec3) ⟨0, 1, 0⟩) /
        Vec3.dot (⟨0, -1, 0⟩ : Vec3) ⟨0, 1, 0⟩ :=
  c3_amended ⟨⟨0, 1, 0⟩, 1⟩ ⟨⟨0, 1, 0⟩, ⟨0, -1, 0⟩⟩ 0
    (Ray.new ⟨0, 1, 0⟩ ⟨0, 1, 0⟩)
    (by norm_num [Vec3.dot])
    (by norm_num [Vec3.dot])
    (by norm_num [Vec3.dot])
    (by norm_num [HalfPlane.hit, Vec3.dot, Vec3.magnitude, Vec3.magnitude2,
      Vec3.project_on, Ray.at', Real.sqrt_one])

/-- Counterexample to claim C3 as stated: the unsigned projection magnitude
makes a ray from the negative side of a half-plane with unit normal report a
hit whose returned origin is not on the plane. -/
theorem c3_counterexample :
    Vec3.dot (⟨0, 1, 0⟩ : Vec3) ⟨0, 1, 0⟩ = 1 ∧
      HalfPlane.hit ⟨⟨0, 1, 0⟩, -1⟩ ⟨⟨0, -2, 0⟩, ⟨0, -1, 0⟩⟩ =
        some (3, Ray.new ⟨0, -5, 0⟩ ⟨0, 1, 0⟩) ∧
      Vec3.dot (Ray.new ⟨0, -5, 0⟩ ⟨0, 1, 0⟩).origin (⟨0, 1, 0⟩ : Vec3) ≠ -1 := by
  have h4 : Real.sqrt 4 = 2 := by
    rw [show (4:ℝ) = 2 ^ 2 by norm_num, Real.sqrt_sq (by norm_num)]
  refine ⟨by norm_num [Vec3.dot], ?_, ?_⟩
  · norm_num [HalfPlane.hit, Vec3.dot, Vec3.magnitude, Vec3.magnitude2,
      Vec3.project_on, Ray.at', h4]
  · norm_num [Ray.new, Vec3.dot]

/-!  C9. -/

/-- Counterexample to claim C9 as stated: `field_of_view = 0` has a defined
tangent (`tan 0 = 0`) and all other parameters positive, yet both viewport
dimensions evaluate to `0` and their ratio is not the aspect ratio. -/
theorem c9_counterexample :
    0 < (800 : ℕ) ∧ 0 < (450 : ℕ) ∧ (0 : ℝ) < 1 ∧
      Camera.viewport_width ⟨⟨⟨0, 0, 0⟩, ⟨0, 0, -1⟩⟩, 800, 450, 0, 1, 0⟩ /
          Camera.viewport_height ⟨⟨⟨0, 0, 0⟩, ⟨0, 0, -1⟩⟩, 800, 450, 0, 1, 0⟩ ≠
        Camera.aspect_ratio ⟨⟨⟨0, 0, 0⟩, ⟨0, 0, -1⟩⟩, 800, 450, 0, 1, 0⟩ := by
  refine ⟨by norm_num, by norm_num, by norm_num, ?_⟩
  norm_num [Camera.viewport_width, Camera.viewport_height, Camera.aspect_ratio,
    Real.tan_zero]

/-- Claim C9 (amended with a nondegenerate field of view): for every camera
with positive image dimensions, positive focal length and
`tan(field_of_view / 2) ≠ 0`, `viewport_width / viewport_height` equals
`aspect_ratio`. -/
theorem c9_amended (c : Camera) (hw : 0 < c.image_width)
    (hh : 0 < c.image_height) (hf : 0 < c.focal_length)
    (htan : Real.tan (c.field_of_view * 0.5) ≠ 0) :
    c.viewport_width / c.viewport_height = c.aspect_ratio := by
  have har : c.aspect_ratio ≠ 0 := by
    rw [Camera.aspect_ratio]
    have hw' : (0 : ℝ) < (c.image_width : ℝ) := by exact_mod_cast hw
    have hh' : (0 : ℝ) < (c.image_height : ℝ) := by exact_mod_cast hh
    positivity
  have hvw : c.viewport_width ≠ 0 := by
    rw [Camera.viewport_width]
    exact mul_ne_zero (mul_ne_zero htan two_ne_zero) (ne_of_gt hf)
  rw [Camera.viewport_height, div_div_eq_mul_div, mul_comm, mul_div_assoc,
    div_self hvw, mul_one]

/-- Witness for C9 at a concrete camera (`fov = π/2`, `tan(π/4) = 1`). -/
theorem c9_witness :
    Camera.viewport_width ⟨⟨⟨0, 0, 0⟩, ⟨0, 0, -1⟩⟩, 800, 450, Real.pi / 2, 1, 0⟩ /
        Camera.viewport_height ⟨⟨⟨0, 0, 0⟩, ⟨0, 0, -1⟩⟩, 800, 450, Real.pi / 2, 1, 0⟩ =
      Camera.aspect_ratio ⟨⟨⟨0, 0, 0⟩, ⟨0, 0, -1⟩⟩, 800, 450, Real.pi / 2, 1, 0⟩ :=
  c9_amended ⟨⟨⟨0, 0, 0⟩, ⟨0, 0, -1⟩⟩, 800, 450, Real.pi / 2, 1, 0⟩
    (by norm_num) (by norm_num) (by norm_num)
    (by
      rw [show (Real.pi / 2 * 0.5 : ℝ) = Real.pi / 4 by ring,
        Real.tan_pi_div_four]
      norm_num)

/-!  C4. -/

/-- Claim C4 fails on the code: for the half-plane `{normal:(0,1,0),
offset:1}` and the parallel ray from the origin along `(1,0,0)`
(`dot(direction, normal) = 0`), the division `1 / 0` produces `+∞` under
IEEE-754 semantics; `+∞ < 0` is false, so the `t < 0` rejection does not
fire and `HalfPlane::hit` returns `Some` with `t = +∞` instead of `None`. -/
theorem c4_parallel_ray_ieee_eval :
    Vec3.dot (⟨1, 0, 0⟩ : Vec3) (⟨0, 1, 0⟩ : Vec3) = 0 ∧
      half_plane_hit_t_ieee ⟨⟨0, 1, 0⟩, 1⟩ ⟨⟨0, 0, 0⟩, ⟨1, 0, 0⟩⟩ =
        some FP.inf := by
  constructor
  · norm_num [Vec3.dot]
  · norm_num [half_plane_hit_t_ieee, fpDiv, fpLtZero, Vec3.dot, Vec3.magnitude,
      Vec3.magnitude2, Vec3.project_on, Real.sqrt_zero]

/-!  C10. -/

/-- The `y` component of a normalized vector lies in `[-1, 1]` (also for the
zero vector, whose normalization is zero in the exact-real model). -/
lemma Vec3.normalize_y_bounds (v : Vec3) :
    -1 ≤ v.normalize.y ∧ v.normalize.y ≤ 1 := by
  have hy : v.normalize.y = (1 / v.magnitude) * v.y := rfl
  rcases eq_or_lt_of_le (Vec3.magnitude_nonneg v) with h0 | hpos
  · rw [hy, ← h0]
    norm_num
  · have habs : |v.y| ≤ v.magnitude := by
      rw [Vec3.magnitude]
      calc |v.y| = Real.sqrt (v.y ^ 2) := (Real.sqrt_sq_eq_abs v.y).symm
        _ ≤ Real.sqrt v.magnitude2 := Real.sqrt_le_sqrt (by
              rw [Vec3.magnitude2, Vec3.dot]
              nlinarith [mul_self_nonneg v.x, mul_self_nonneg v.z])
    have hb : |v.normalize.y| ≤ 1 := by
      rw [hy, one_div, ← div_eq_inv_mul, abs_div, abs_of_pos hpos]
      exact (div_le_one hpos).mpr habs
    exact abs_le.mp hb

/-- All three channels of `trace_path` lie in `[0, 1]`: black at depth 0, the
sky gradient's channels are convex combinations of values in `[0.5, 1]`,
`[0.7, 1]` and `{1}`, and a bounce multiplies a bounded color by `0.4`. -/
lemma trace_path_bounds (d : ℕ) (ray : Ray) (world : World)
    (bounce : ℕ → Vec3) :
    0 ≤ (trace_path ray world d bounce).r ∧ (trace_path ray world d bounce).r ≤ 1 ∧
    0 ≤ (trace_path ray world d bounce).g ∧ (trace_path ray world d bounce).g ≤ 1 ∧
    0 ≤ (trace_path ray world d bounce).b ∧ (trace_path ray world d bounce).b ≤ 1 := by
  induction d generalizing ray with
  | zero =>
    simp only [trace_path]
    norm_num
  | succ k ih =>
    rw [trace_path_succ]
    cases h : closest_hit world ray with
    | some p =>
      obtain ⟨t0, norm⟩ := p
      dsimp only
      obtain ⟨h1, h2, h3, h4, h5, h6⟩ := ih (norm.rand_diffuse (bounce k))
      refine ⟨?_, ?_, ?_, ?_, ?_, ?_⟩ <;> linarith
    | none =>
      dsimp only
      obtain ⟨hu1, hu2⟩ := Vec3.normalize_y_bounds ray.direction
      refine ⟨?_, ?_, ?_, ?_, ?_, ?_⟩ <;> linarith

/-- Claim C10: for every ray with nonzero direction, every world, every depth,
and every RNG state, each color channel returned by `trace_path` lies in
`[0, 1]` (hence per-pixel averages, their square roots, and the `×256`-scaled
values before clamping never exceed 256). -/
theorem c10_trace_path_channels_in_unit_interval (ray : Ray) (world : World)
    (d : ℕ) (bounce : ℕ → Vec3) (hdir : ray.direction ≠ 0) :
    0 ≤ (trace_path ray world d bounce).r ∧ (trace_path ray world d bounce).r ≤ 1 ∧
    0 ≤ (trace_path ray world d bounce).g ∧ (trace_path ray world d bounce).g ≤ 1 ∧
    0 ≤ (trace_path ray world d bounce).b ∧ (trace_path ray world d bounce).b ≤ 1 :=
  trace_path_bounds d ray world bounce

/-- Witness for C10 at a concrete input. -/
theorem c10_witness :
    0 ≤ (trace_path ⟨⟨0, 0, 0⟩, ⟨0, 1, 0⟩⟩ ⟨[]⟩ 1 (fun _ => 0)).r ∧
    (trace_path ⟨⟨0, 0, 0⟩, ⟨0, 1, 0⟩⟩ ⟨[]⟩ 1 (fun _ => 0)).r ≤ 1 ∧
    0 ≤ (trace_path ⟨⟨0, 0, 0⟩, ⟨0, 1, 0⟩⟩ ⟨[]⟩ 1 (fun _ => 0)).g ∧
    (trace_path ⟨⟨0, 0, 0⟩, ⟨0, 1, 0⟩⟩ ⟨[]⟩ 1 (fun _ => 0)).g ≤ 1 ∧
    0 ≤ (trace_path ⟨⟨0, 0, 0⟩, ⟨0, 1, 0⟩⟩ ⟨[]⟩ 1 (fun _ => 0)).b ∧
    (trace_path ⟨⟨0, 0, 0⟩, ⟨0, 1, 0⟩⟩ ⟨[]⟩ 1 (fun _ => 0)).b ≤ 1 :=
  c10_trace_path_channels_in_unit_interval ⟨⟨0, 0, 0⟩, ⟨0, 1, 0⟩⟩ ⟨[]⟩ 1
    (fun _ => 0) (by simp [Vec3.ext_iff])

/-!  C8. -/

/-- The `t`-component of one nearest-hit step agrees with the spec-side
`min` step. -/
lemma closest_hit_step_map_fst (acc : Option (ℝ × Ray)) (item : Hittable)
    (ray : Ray) :
    (closest_hit_step acc item ray).map Prod.fst =
      spec_min_step (acc.map Prod.fst) item ray := by
  unfold closest_hit_step spec_min_step
  cases hhit : item.hit ray with
  | none => simp
  | some p =>
    obtain ⟨t, n⟩ := p
    cases acc with
    | none => simp
    | some q =>
      obtain ⟨tc, nc⟩ := q
      by_cases hc : tc < t
      · simp [hc, min_eq_left (le_of_lt hc)]
      · simp [hc, min_eq_right (le_of_not_lt hc)]

/-- The `t`-component of the nearest-hit fold agrees with the spec-side
`min` fold, for any accumulator. -/
lemma foldl_closest_map_fst (ray : Ray) (l : List Hittable)
    (acc : Option (ℝ × Ray)) :
    (l.foldl (fun acc item => closest_hit_step acc item ray) acc).map Prod.fst =
      l.foldl (fun acc item => spec_min_step acc item ray) (acc.map Prod.fst) := by
  induction l generalizing acc with
  | nil => rfl
  | cons o l ih =>
    simp only [List.foldl_cons]
    rw [ih, closest_hit_step_map_fst]

/-- Two spec-side `min` steps commute. -/
lemma spec_min_step_comm (acc : Option ℝ) (a b : Hittable) (ray : Ray) :
    spec_min_step (spec_min_step acc a ray) b ray =
      spec_min_step (spec_min_step acc b ray) a ray := by
  unfold spec_min_step
  cases ha : (a.hit ray).map Prod.fst with
  | none =>
    cases hb : (b.hit ray).map Prod.fst <;> rfl
  | some ta =>
    cases hb : (b.hit ray).map Prod.fst with
    | none => rfl
    | some tb =>
      cases acc with
      | none =>
        dsimp only
        rw [min_comm]
      | some c =>
        dsimp only
        rw [min_right_comm]

/-- The spec-side `min` fold is invariant under permutation of the object
list. -/
lemma spec_fold_perm (ray : Ray) {l1 l2 : List Hittable} (p : l1.Perm l2) :
    ∀ acc : Option ℝ,
      l1.foldl (fun acc item => spec_min_step acc item ray) acc =
        l2.foldl (fun acc item => spec_min_step acc item ray) acc := by
  induction p with
  | nil => intro acc; rfl
  | cons x p ih =>
    intro acc
    simp only [List.foldl_cons]
    exact ih _
  | swap x y l =>
    intro acc
    simp only [List.foldl_cons]
    rw [spec_min_step_comm]
  | trans p q ih1 ih2 =>
    intro acc
    rw [ih1, ih2]

/-- Claim C8 (amended): the `t` of the nearest-hit fold equals the spec-side
minimum `t` over all objects that report a hit, and this `t` is invariant
under any permutation of the world's object list.  (The full result — the
accompanying normal ray — is not permutation-invariant: on ties the later
object wins, see the counterexample.) -/
theorem c8_amended (ray : Ray) (w1 w2 : World) (hperm : w1.stuff.Perm w2.stuff) :
    (closest_hit w1 ray).map Prod.fst = spec_min_hit_t w1 ray ∧
      (closest_hit w1 ray).map Prod.fst = (closest_hit w2 ray).map Prod.fst := by
  have h1 := foldl_closest_map_fst ray w1.stuff none
  have h2 := foldl_closest_map_fst ray w2.stuff none
  refine ⟨h1, ?_⟩
  rw [closest_hit, closest_hit] at *
  rw [h1, h2]
  exact spec_fold_perm ray hperm none

/-- Witness for C8 at a concrete input: two spheres both hit at `t = 2`. -/
theorem c8_witness :
    (closest_hit ⟨[.sphere ⟨⟨0, 0, -3⟩, 1⟩, .sphere ⟨⟨0, 1, -2⟩, 1⟩]⟩
          ⟨⟨0, 0, 0⟩, ⟨0, 0, -1⟩⟩).map Prod.fst =
        spec_min_hit_t ⟨[.sphere ⟨⟨0, 0, -3⟩, 1⟩, .sphere ⟨⟨0, 1, -2⟩, 1⟩]⟩
          ⟨⟨0, 0, 0⟩, ⟨0, 0, -1⟩⟩ ∧
      (closest_hit ⟨[.sphere ⟨⟨0, 0, -3⟩, 1⟩, .sphere ⟨⟨0, 1, -2⟩, 1⟩]⟩
          ⟨⟨0, 0, 0⟩, ⟨0, 0, -1⟩⟩).map Prod.fst =
        (closest_hit ⟨[.sphere ⟨⟨0, 1, -2⟩, 1⟩, .sphere ⟨⟨0, 0, -3⟩, 1⟩]⟩
          ⟨⟨0, 0, 0⟩, ⟨0, 0, -1⟩⟩).map Prod.fst :=
  c8_amended ⟨⟨0, 0, 0⟩, ⟨0, 0, -1⟩⟩
    ⟨[.sphere ⟨⟨0, 0, -3⟩, 1⟩, .sphere ⟨⟨0, 1, -2⟩, 1⟩]⟩
    ⟨[.sphere ⟨⟨0, 1, -2⟩, 1⟩, .sphere ⟨⟨0, 0, -3⟩, 1⟩]⟩
    (List.Perm.swap _ _ _)

/-- Counterexample to the permutation half of claim C8 as stated: two spheres
that both hit at `t = 2` with different normals — the tie goes to the later
object, so swapping the list changes the returned normal ray. -/
theorem c8_counterexample :
    closest_hit ⟨[.sphere ⟨⟨0, 0, -3⟩, 1⟩, .sphere ⟨⟨0, 1, -2⟩, 1⟩]⟩
        ⟨⟨0, 0, 0⟩, ⟨0, 0, -1⟩⟩ ≠
      closest_hit ⟨[.sphere ⟨⟨0, 1, -2⟩, 1⟩, .sphere ⟨⟨0, 0, -3⟩, 1⟩]⟩
        ⟨⟨0, 0, 0⟩, ⟨0, 0, -1⟩⟩ := by
  have hitA : Hittable.hit (.sphere ⟨⟨0, 0, -3⟩, 1⟩) ⟨⟨0, 0, 0⟩, ⟨0, 0, -1⟩⟩ =
      some (2, ⟨⟨0, 0, -2⟩, ⟨0, 0, 1⟩⟩) := by
    norm_num [Hittable.hit, Sphere.hit, Vec3.dot, Vec3.magnitude2, Ray.at',
      Ray.new, Vec3.normalize, Vec3.magnitude, Real.sqrt_one]
  have hitB : Hittable.hit (.sphere ⟨⟨0, 1, -2⟩, 1⟩) ⟨⟨0, 0, 0⟩, ⟨0, 0, -1⟩⟩ =
      some (2, ⟨⟨0, 0, -2⟩, ⟨0, -1, 0⟩⟩) := by
    norm_num [Hittable.hit, Sphere.hit, Vec3.dot, Vec3.magnitude2, Ray.at',
      Ray.new, Vec3.normalize, Vec3.magnitude, Real.sqrt_one]
  have e1 : closest_hit ⟨[.sphere ⟨⟨0, 0, -3⟩, 1⟩, .sphere ⟨⟨0, 1, -2⟩, 1⟩]⟩
      ⟨⟨0, 0, 0⟩, ⟨0, 0, -1⟩⟩ = some (2, ⟨⟨0, 0, -2⟩, ⟨0, -1, 0⟩⟩) := by
    rw [closest_hit]
    simp only [List.foldl_cons, List.foldl_nil, closest_hit_step, hitA, hitB]
    norm_num
  have e2 : closest_hit ⟨[.sphere ⟨⟨0, 1, -2⟩, 1⟩, .sphere ⟨⟨0, 0, -3⟩, 1⟩]⟩
      ⟨⟨0, 0, 0⟩, ⟨0, 0, -1⟩⟩ = some (2, ⟨⟨0, 0, -2⟩, ⟨0, 0, 1⟩⟩) := by
    rw [closest_hit]
    simp only [List.foldl_cons, List.foldl_nil, closest_hit_step, hitA, hitB]
    norm_num
  intro h
  rw [e1, e2] at h
  simp only [Option.some.injEq, Prod.mk.injEq, Ray.mk.injEq, Vec3.mk.injEq] at h
  norm_num at h

/-- One spec-side step, characterized: a `some` result is attained by the
accumulator or by the item's hit, and bounds both from below. -/
lemma spec_min_step_char (acc : Option ℝ) (item : Hittable) (ray : Ray)
    (a' : ℝ) (h : spec_min_step acc item ray = some a') :
    (acc = some a' ∨ (item.hit ray).map Prod.fst = some a') ∧
      (∀ a, acc = some a → a' ≤ a) ∧
      (∀ u, (item.hit ray).map Prod.fst = some u → a' ≤ u) := by
  unfold spec_min_step at h
  cases hhit : (item.hit ray).map Prod.fst with
  | none =>
    rw [hhit] at h
    dsimp only at h
    refine ⟨Or.inl h, ?_, ?_⟩
    · intro a ha
      rw [h, Option.some.injEq] at ha
      exact le_of_eq ha
    · intro u hu
      exact absurd hu (by simp)
  | some t =>
    rw [hhit] at h
    cases acc with
    | none =>
      dsimp only at h
      injection h with h
      subst h
      refine ⟨Or.inr rfl, by simp, ?_⟩
      intro u hu
      injection hu with hu
      exact le_of_eq hu
    | some a =>
      dsimp only at h
      injection h with h
      subst h
      refine ⟨?_, ?_, ?_⟩
      · rcases min_choice a t with hm | hm
        · exact Or.inl (congrArg some hm.symm)
        · exact Or.inr (congrArg some hm.symm)
      · intro b hb
        injection hb with hb
        rw [← hb]
        exact min_le_left a t
      · intro u hu
        injection hu with hu
        rw [← hu]
        exact min_le_right a t

/-- The spec-side `min` fold, characterized over a whole list: a `some`
result is attained by the accumulator or by some hitting object, and bounds
the accumulator and every hitting object's `t` from below. -/
lemma spec_fold_min_char (ray : Ray) (l : List Hittable) :
    ∀ (acc : Option ℝ) (t : ℝ),
      l.foldl (fun acc item => spec_min_step acc item ray) acc = some t →
      ((acc = some t ∨ ∃ o ∈ l, (o.hit ray).map Prod.fst = some t) ∧
        (∀ o ∈ l, ∀ u, (o.hit ray).map Prod.fst = some u → t ≤ u) ∧
        (∀ a, acc = some a → t ≤ a)) := by
  induction l with
  | nil =>
    intro acc t h
    have h' : acc = some t := h
    refine ⟨Or.inl h', by simp, ?_⟩
    intro a ha
    rw [h', Option.some.injEq] at ha
    exact le_of_eq ha
  | cons o l ih =>
    intro acc t h
    rw [List.foldl_cons] at h
    obtain ⟨hattain, hlb, hacc⟩ := ih (spec_min_step acc o ray) t h
    refine ⟨?_, ?_, ?_⟩
    · rcases hattain with h0 | h1
      · rcases (spec_min_step_char acc o ray t h0).1 with h2 | h2
        · exact Or.inl h2
        · exact Or.inr ⟨o, List.mem_cons_self o l, h2⟩
      · obtain ⟨o', ho', h2⟩ := h1
        exact Or.inr ⟨o', List.mem_cons_of_mem o ho', h2⟩
    · intro o' ho' u hu
      rcases List.mem_cons.mp ho' with rfl | ho'
      · cases hs : spec_min_step acc o' ray with
        | none =>
          unfold spec_min_step at hs
          rw [hu] at hs
          cases acc <;> simp at hs
        | some a' =>
          exact le_trans (hacc a' hs)
            ((spec_min_step_char acc o' ray a' hs).2.2 u hu)
      · exact hlb o' ho' u hu
    · intro a ha
      cases hs : spec_min_step acc o ray with
      | none =>
        unfold spec_min_step at hs
        rw [ha] at hs
        cases hhh : (o.hit ray).map Prod.fst <;> rw [hhh] at hs <;>
          simp at hs
      | some a' =>
        exact le_trans (hacc a' hs)
          ((spec_min_step_char acc o ray a' hs).2.1 a ha)

/-- The spec-side minimum really is the minimum: when `spec_min_hit_t` is
`some t`, some object of the world reports a hit at exactly `t`, and every
object that reports a hit does so at `t` or later. -/
lemma spec_min_hit_t_is_min (world : World) (ray : Ray) (t : ℝ)
    (h : spec_min_hit_t world ray = some t) :
    (∃ o ∈ world.stuff, (o.hit ray).map Prod.fst = some t) ∧
      ∀ o ∈ world.stuff, ∀ u, (o.hit ray).map Prod.fst = some u → t ≤ u := by
  obtain ⟨hattain, hlb, -⟩ := spec_fold_min_char ray world.stuff none t h
  refine ⟨?_, hlb⟩
  rcases hattain with h0 | h1
  · exact absurd h0 (by simp)
  · exact h1
